import Mathlib

/-!
Shallow embedding of the `file_task` repository's state-reconciliation engine
(`src/filesystem.rs`), its initial-state builder, and the service health probe
(`src/service.rs`), with theorems checking the specification's claims.

Paths are modelled as lists of components (Rust `PathBuf`); `Path::starts_with`
is component-wise list prefix, `Path::parent` drops the last component (and is
`none` for the root path, modelled as `[]`). `Instant` timestamps are modelled
as `Int`; because the code reads `Instant::now()` once at the top of
`update_file_items` and again (via `elapsed()`) during the retention sweep,
the embedding takes two clock parameters `now ≤ sweepNow`.
-/

namespace FileTask

/-- A filesystem path as its list of components (`/root/foo` is `["root", "foo"]`). -/
abbrev FPath := List String

/-- Rust `Path::parent`: `none` for the root path, otherwise the path without
its last component. -/
def parent : FPath → Option FPath
  | [] => none
  | p => some p.dropLast

/-- `FileItem` from `src/filesystem.rs`: a path plus an optional tombstone
timestamp (`removed`). -/
structure FileItem where
  path : FPath
  removed : Option Int
deriving DecidableEq, Repr

/-- `FileItem::new`: a live entry (no tombstone). -/
def FileItem.new (path : FPath) : FileItem :=
  { path := path, removed := none }

/-- `FileGroup` from `src/filesystem.rs`: a watched root and its ordered entries. -/
structure FileGroup where
  root : FPath
  items : List FileItem
deriving DecidableEq, Repr

/-- `FileChange` from `src/filesystem.rs`. -/
inductive FileChange where
  | Added : FPath → FileChange
  | Removed : FPath → FileChange
  | Moved : FPath → FPath → FileChange
deriving DecidableEq, Repr

/-- `DELETED_RETENTION` from `src/main.rs`: one day, in seconds. -/
def DELETED_RETENTION : Int := 60 * 60 * 24

/-- The membership test of `find_groups` (`src/filesystem.rs`):
`path.starts_with(f.root)`, i.e. the group's root is a component-wise
prefix of `path`. -/
def matchesGroup (path : FPath) (g : FileGroup) : Bool :=
  List.isPrefixOf g.root path

/-- `group.items.iter_mut().find(|f| f.path == *path)` followed by
`existing.removed = Some(t)`: tombstone the first entry whose path is `p`,
leaving everything else unchanged. -/
def setRemovedFirst (p : FPath) (t : Int) : List FileItem → List FileItem
  | [] => []
  | f :: fs =>
    if f.path = p then { f with removed := some t } :: fs
    else f :: setRemovedFirst p t fs

/-- The same-parent rename mutation of `update_file_items`: on the first entry
whose path is `fr`, rewrite the path to `dst` and clear the tombstone. -/
def renameFirst (fr dst : FPath) : List FileItem → List FileItem
  | [] => []
  | f :: fs =>
    if f.path = fr then { f with path := dst, removed := none } :: fs
    else f :: renameFirst fr dst fs

/-- One iteration of the `for change in changes` loop of `update_file_items`
(`src/filesystem.rs`, lines 88-135), applied to the whole registry. -/
def applyChange (now : Int) (groups : List FileGroup) (change : FileChange) :
    List FileGroup :=
  match change with
  | .Added path =>
    groups.map fun g =>
      if matchesGroup path g then { g with items := g.items ++ [FileItem.new path] }
      else g
  | .Removed path =>
    groups.map fun g =>
      if matchesGroup path g then { g with items := setRemovedFirst path now g.items }
      else g
  | .Moved fr dst =>
    if parent fr = parent dst then
      -- rename in same monitored group
      groups.map fun g =>
        if matchesGroup fr g then { g with items := renameFirst fr dst g.items }
        else g
    else
      -- was it moved to another tracked group?
      let moved := groups.any (matchesGroup dst)
      let groups1 := groups.map fun g =>
        if matchesGroup dst g then { g with items := g.items ++ [FileItem.new dst] }
        else g
      -- if moved to another tracked group, back-date the tombstone past the
      -- retention window; otherwise treat it as a normal deletion
      let removed := if moved then now - DELETED_RETENTION else now
      groups1.map fun g =>
        if matchesGroup fr g then { g with items := setRemovedFirst fr removed g.items }
        else g

/-- The `retain` predicate of the sweep: keep live entries, and tombstoned
entries whose elapsed age (`sweepNow - removed`) is at most the retention
window. -/
def retainItem (sweepNow : Int) (f : FileItem) : Bool :=
  match f.removed with
  | none => true
  | some removed => decide (sweepNow - removed ≤ DELETED_RETENTION)

/-- The retention sweep at the end of `update_file_items` (lines 137-143). -/
def sweep (sweepNow : Int) (groups : List FileGroup) : List FileGroup :=
  groups.map fun g => { g with items := g.items.filter (retainItem sweepNow) }

/-- `update_file_items` (`src/filesystem.rs`, lines 82-144): drain the queued
changes in order, apply each, then run the retention sweep. `now` is the
`Instant::now()` read at the top of the call; `sweepNow` is the (slightly
later) clock at which `elapsed()` is evaluated during the sweep. -/
def update_file_items (now sweepNow : Int) (changes : List FileChange)
    (groups : List FileGroup) : List FileGroup :=
  sweep sweepNow (changes.foldl (applyChange now) groups)

/-! ## Service health probe (`src/service.rs`) -/

/-- The captured result of the external `systemctl is-active <unit>` invocation
(Rust `std::process::Output`, after the repository's use of it): `success` is
`output.status.success()`, and `stdout` carries the result of decoding the raw
stdout bytes as UTF-8 (`String::from_utf8(output.stdout).ok()` in
`ServiceState::from`): `some s` when the bytes decode to `s`, `none` when they
are not valid UTF-8. -/
structure Output where
  stdout : Option String
  success : Bool
deriving DecidableEq, Repr

/-- `ServiceDetails` from `src/service.rs`. -/
structure ServiceDetails where
  name : String
  active : Bool
  status : String
deriving DecidableEq, Repr

/-- `ServiceState` from `src/service.rs`. -/
inductive ServiceState where
  | Unknown : String → ServiceState
  | Details : ServiceDetails → ServiceState
deriving DecidableEq, Repr

/-- `ServiceState::from` (`src/service.rs`, lines 10-24): the option-chaining
closure — any failure along the chain falls back to `Unknown(name)`. (`from`
is a reserved word in Lean, hence the name `ofOutput`.) -/
def ServiceState.ofOutput (name : String) (maybe_output : Option Output) :
    ServiceState :=
  (do
    let output ← maybe_output
    let status ← output.stdout
    let active := output.success
    some (ServiceState.Details { name := name, active := active, status := status }))
  |>.getD (ServiceState.Unknown name)

/-- `service_status` (`src/service.rs`, lines 45-52), parameterised by the
outcome of the external command: `none` models `Command::output()` failing
(e.g. the `systemctl` binary missing), `some o` a completed command. -/
def service_status (unit : String) (commandResult : Option Output) : ServiceState :=
  ServiceState.ofOutput unit commandResult

/-! ## Initial state builder (`src/filesystem.rs`, lines 52-80) -/

/-- Abstract filesystem oracle standing in for the real OS calls used by
`get_initial_state` / `read_initial_contents`: `Path::exists`, `Path::is_dir`,
`Path::canonicalize` (`none` models an `io::Error`), and `fs::read_dir`
listing the immediate children (`none` models an `io::Error`). -/
structure FS where
  pathExists : FPath → Bool
  isDir : FPath → Bool
  canonicalize : FPath → Option FPath
  readDir : FPath → Option (List FPath)

/-- The error outcomes of `get_initial_state`: the two descriptive validation
messages (`"path {} does not exist"`, `"path {} is not a directory"`, each
naming the offending path) and the IO-class failures of canonicalization or
directory enumeration. -/
inductive InitError where
  | doesNotExist : FPath → InitError
  | notADirectory : FPath → InitError
  | ioError : InitError
deriving DecidableEq, Repr

/-- The `collect::<Result<...>>` over canonicalizing each child of a root in
`read_initial_contents`: all children canonicalized in order, stopping at the
first failure. -/
def canonicalizeAll (fs : FS) : List FPath → Option (List FPath)
  | [] => some []
  | p :: ps =>
    match fs.canonicalize p with
    | none => none
    | some c =>
      match canonicalizeAll fs ps with
      | none => none
      | some rest => some (c :: rest)

/-- `read_initial_contents` (`src/filesystem.rs`, lines 70-80). -/
def read_initial_contents (fs : FS) (path : FPath) : Except InitError FileGroup :=
  match fs.canonicalize path with
  | none => .error .ioError
  | some root =>
    match fs.readDir root with
    | none => .error .ioError
    | some children =>
      match canonicalizeAll fs children with
      | none => .error .ioError
      | some contents =>
        .ok { root := root, items := contents.map FileItem.new }

/-- The `for path in paths` validation loop at the top of `get_initial_state`
(`src/filesystem.rs`, lines 55-62): existence then directory-ness, first
violation wins. -/
def checkPaths (fs : FS) : List FPath → Except InitError Unit
  | [] => .ok ()
  | path :: rest =>
    if fs.pathExists path = false then .error (.doesNotExist path)
    else if fs.isDir path = false then .error (.notADirectory path)
    else checkPaths fs rest

/-- The `collect::<Result<Vec<_>, _>>` over `read_initial_contents` in
`get_initial_state`: one group per path, in order, stopping at the first
failure. -/
def collectGroups (fs : FS) : List FPath → Except InitError (List FileGroup)
  | [] => .ok []
  | p :: ps =>
    match read_initial_contents fs p with
    | .error e => .error e
    | .ok g =>
      match collectGroups fs ps with
      | .error e => .error e
      | .ok gs => .ok (g :: gs)

/-- `get_initial_state` (`src/filesystem.rs`, lines 52-68). -/
def get_initial_state (fs : FS) (paths : List FPath) :
    Except InitError (List FileGroup) :=
  match checkPaths fs paths with
  | .error e => .error e
  | .ok _ => collectGroups fs paths

/-! ## Helper lemmas about the reconciliation engine -/

/-- The effect of one drained change on a single group, abstracted over the
`moved` flag of the cross-directory branch (which is a property of the whole
registry, not of the group). Used only to decompose `applyChange` in proofs. -/
def applyChangeGroup (now : Int) (moved : Bool) (c : FileChange) (g : FileGroup) :
    FileGroup :=
  match c with
  | .Added path =>
    if matchesGroup path g then { g with items := g.items ++ [FileItem.new path] }
    else g
  | .Removed path =>
    if matchesGroup path g then { g with items := setRemovedFirst path now g.items }
    else g
  | .Moved fr dst =>
    if parent fr = parent dst then
      if matchesGroup fr g then { g with items := renameFirst fr dst g.items }
      else g
    else
      let t := if moved then now - DELETED_RETENTION else now
      let g1 :=
        if matchesGroup dst g then { g with items := g.items ++ [FileItem.new dst] }
        else g
      if matchesGroup fr g1 then { g1 with items := setRemovedFirst fr t g1.items }
      else g1

/-- The `moved` flag computed by the cross-directory branch: does any group
match the destination? (`false` for the other change kinds, where it is
irrelevant.) -/
def movedFlag (groups : List FileGroup) : FileChange → Bool
  | .Moved _ dst => groups.any (matchesGroup dst)
  | _ => false

theorem applyChange_eq_map (now : Int) (groups : List FileGroup) (c : FileChange) :
    applyChange now groups c =
      groups.map (applyChangeGroup now (movedFlag groups c) c) := by
  cases c with
  | Added p => simp [applyChange, applyChangeGroup, movedFlag]
  | Removed p => simp [applyChange, applyChangeGroup, movedFlag]
  | Moved fr dst =>
    by_cases hpar : parent fr = parent dst
    · simp [applyChange, applyChangeGroup, movedFlag, hpar]
    · simp only [applyChange, if_neg hpar, List.map_map, movedFlag]
      refine List.map_congr_left fun g _ => ?_
      simp only [Function.comp, applyChangeGroup, if_neg hpar]

theorem length_applyChange (now : Int) (groups : List FileGroup) (c : FileChange) :
    (applyChange now groups c).length = groups.length := by
  rw [applyChange_eq_map, List.length_map]

theorem getElem?_applyChange (now : Int) (groups : List FileGroup) (c : FileChange)
    (i : Nat) :
    (applyChange now groups c)[i]? =
      (groups[i]?).map (applyChangeGroup now (movedFlag groups c) c) := by
  rw [applyChange_eq_map, List.getElem?_map]

theorem root_applyChangeGroup (now : Int) (moved : Bool) (c : FileChange)
    (g : FileGroup) : (applyChangeGroup now moved c g).root = g.root := by
  cases c with
  | Added p => simp only [applyChangeGroup]; split <;> rfl
  | Removed p => simp only [applyChangeGroup]; split <;> rfl
  | Moved fr dst =>
    simp only [applyChangeGroup]
    split
    · split <;> rfl
    · split <;> split <;> rfl

theorem length_sweep (sweepNow : Int) (groups : List FileGroup) :
    (sweep sweepNow groups).length = groups.length := by
  rw [sweep, List.length_map]

theorem getElem?_sweep (sweepNow : Int) (groups : List FileGroup) (i : Nat) :
    (sweep sweepNow groups)[i]? =
      (groups[i]?).map fun g => { g with items := g.items.filter (retainItem sweepNow) } := by
  rw [sweep, List.getElem?_map]

theorem length_foldl_applyChange (now : Int) (changes : List FileChange)
    (groups : List FileGroup) :
    (changes.foldl (applyChange now) groups).length = groups.length := by
  induction changes generalizing groups with
  | nil => rfl
  | cons c cs ih => rw [List.foldl_cons, ih, length_applyChange]

theorem length_update_file_items (now sweepNow : Int) (changes : List FileChange)
    (groups : List FileGroup) :
    (update_file_items now sweepNow changes groups).length = groups.length := by
  rw [update_file_items, length_sweep, length_foldl_applyChange]

theorem setRemovedFirst_eq_self (p : FPath) (t : Int) (l : List FileItem)
    (h : ∀ f ∈ l, f.path ≠ p) : setRemovedFirst p t l = l := by
  induction l with
  | nil => rfl
  | cons f fs ih =>
    rw [setRemovedFirst, if_neg (h f (List.mem_cons_self f fs)),
      ih fun f hf => h f (List.mem_cons_of_mem _ hf)]

theorem setRemovedFirst_split (p : FPath) (t : Int) (pre : List FileItem)
    (fj : FileItem) (post : List FileItem)
    (hpre : ∀ f ∈ pre, f.path ≠ p) (hfj : fj.path = p) :
    setRemovedFirst p t (pre ++ fj :: post) =
      pre ++ { fj with removed := some t } :: post := by
  induction pre with
  | nil => simp [setRemovedFirst, hfj]
  | cons f fs ih =>
    rw [List.cons_append, setRemovedFirst, if_neg (hpre f (List.mem_cons_self f fs)),
      ih fun f hf => hpre f (List.mem_cons_of_mem _ hf), List.cons_append]

theorem renameFirst_eq_self (fr dst : FPath) (l : List FileItem)
    (h : ∀ f ∈ l, f.path ≠ fr) : renameFirst fr dst l = l := by
  induction l with
  | nil => rfl
  | cons f fs ih =>
    rw [renameFirst, if_neg (h f (List.mem_cons_self f fs)),
      ih fun f hf => h f (List.mem_cons_of_mem _ hf)]

theorem renameFirst_split (fr dst : FPath) (pre : List FileItem)
    (fj : FileItem) (post : List FileItem)
    (hpre : ∀ f ∈ pre, f.path ≠ fr) (hfj : fj.path = fr) :
    renameFirst fr dst (pre ++ fj :: post) =
      pre ++ { fj with path := dst, removed := none } :: post := by
  induction pre with
  | nil => simp [renameFirst, hfj]
  | cons f fs ih =>
    rw [List.cons_append, renameFirst, if_neg (hpre f (List.mem_cons_self f fs)),
      ih fun f hf => hpre f (List.mem_cons_of_mem _ hf), List.cons_append]

theorem getElem?_foldl_applyChange_congr (now : Int) (changes : List FileChange) :
    ∀ (cur : List FileGroup) (i j : Nat), cur[i]? = cur[j]? →
      (changes.foldl (applyChange now) cur)[i]? =
        (changes.foldl (applyChange now) cur)[j]? := by
  induction changes with
  | nil => intro cur i j h; exact h
  | cons c cs ih =>
    intro cur i j h
    rw [List.foldl_cons]
    exact ih _ i j (by rw [getElem?_applyChange, getElem?_applyChange, h])

theorem getElem?_foldl_applyChange_root (now : Int) (changes : List FileChange) :
    ∀ (cur : List FileGroup) (i : Nat),
      ((changes.foldl (applyChange now) cur)[i]?).map FileGroup.root =
        (cur[i]?).map FileGroup.root := by
  induction changes with
  | nil => intro cur i; rfl
  | cons c cs ih =>
    intro cur i
    rw [List.foldl_cons, ih, getElem?_applyChange]
    cases cur[i]? with
    | none => rfl
    | some g => simp [root_applyChangeGroup]

/-- C9: every call to `update_file_items` leaves the set of groups intact: the
number of groups is unchanged, and the group at every index keeps its root
path; only the `items` fields (the only other field of `FileGroup`) are ever
modified. -/
theorem update_file_items_preserves_group_frame (now sweepNow : Int)
    (changes : List FileChange) (groups : List FileGroup) :
    (update_file_items now sweepNow changes groups).length = groups.length ∧
    ∀ i : Nat,
      ((update_file_items now sweepNow changes groups)[i]?).map FileGroup.root =
        (groups[i]?).map FileGroup.root := by
  refine ⟨length_update_file_items now sweepNow changes groups, fun i => ?_⟩
  have hmid := getElem?_foldl_applyChange_root now changes groups i
  rw [update_file_items, getElem?_sweep, ← hmid]
  cases (changes.foldl (applyChange now) groups)[i]? <;> rfl

/-- C6: two groups that agree (same root path and equal item lists) still
have equal item lists after any single `update_file_items` call draining any
event sequence. -/
theorem equal_groups_stay_equal (now sweepNow : Int) (changes : List FileChange)
    (groups : List FileGroup) (i j : Nat) (g gi gj : FileGroup)
    (hi : groups[i]? = some g) (hj : groups[j]? = some g)
    (hi' : (update_file_items now sweepNow changes groups)[i]? = some gi)
    (hj' : (update_file_items now sweepNow changes groups)[j]? = some gj) :
    gi.items = gj.items := by
  have hmid := getElem?_foldl_applyChange_congr now changes groups i j
    (hi.trans hj.symm)
  rw [update_file_items, getElem?_sweep] at hi' hj'
  rw [hmid] at hi'
  rw [hi'] at hj'
  exact congrArg FileGroup.items (Option.some.inj hj')

/-- C3: the retention sweep runs at the end of every `update_file_items` call:
after any call (any drained event list) no entry with an expired tombstone
survives; and a call draining zero events keeps the group count and keeps an
entry exactly when it is live or its tombstone age is within the retention
window — live entries are never purged. -/
theorem retention_sweep_correct (now sweepNow : Int) (changes : List FileChange)
    (groups : List FileGroup) :
    (∀ (i : Nat) (g' : FileGroup),
      (update_file_items now sweepNow changes groups)[i]? = some g' →
      ∀ f ∈ g'.items, ∀ r, f.removed = some r → sweepNow - r ≤ DELETED_RETENTION) ∧
    (update_file_items now sweepNow [] groups).length = groups.length ∧
    (∀ (i : Nat) (g g' : FileGroup), groups[i]? = some g →
      (update_file_items now sweepNow [] groups)[i]? = some g' →
      ∀ f : FileItem, f ∈ g'.items ↔ f ∈ g.items ∧
        (f.removed = none ∨ ∃ r, f.removed = some r ∧
          sweepNow - r ≤ DELETED_RETENTION)) := by
  refine ⟨fun i g' hg' f hf r hr => ?_,
    length_update_file_items now sweepNow [] groups, fun i g g' hg hg' f => ?_⟩
  · rw [update_file_items, getElem?_sweep] at hg'
    cases h : (changes.foldl (applyChange now) groups)[i]? with
    | none => rw [h] at hg'; exact absurd hg' (by simp)
    | some m =>
      rw [h] at hg'
      have : g'.items = m.items.filter (retainItem sweepNow) :=
        congrArg FileGroup.items (Option.some.inj hg').symm
      rw [this] at hf
      have hret := (List.mem_filter.mp hf).2
      rw [retainItem, hr] at hret
      exact of_decide_eq_true hret
  · rw [update_file_items, List.foldl_nil, getElem?_sweep, hg] at hg'
    have : g' = { g with items := g.items.filter (retainItem sweepNow) } :=
      (Option.some.inj hg').symm
    rw [this]
    simp only [List.mem_filter]
    constructor
    · rintro ⟨hmem, hkeep⟩
      refine ⟨hmem, ?_⟩
      cases hfr : f.removed with
      | none => exact Or.inl rfl
      | some r =>
        rw [retainItem, hfr] at hkeep
        exact Or.inr ⟨r, rfl, of_decide_eq_true hkeep⟩
    · rintro ⟨hmem, hlive | ⟨r, hr, hwin⟩⟩
      · exact ⟨hmem, by rw [retainItem, hlive]⟩
      · exact ⟨hmem, by rw [retainItem, hr]; exact decide_eq_true hwin⟩

theorem setRemovedFirst_concat_ne (p : FPath) (t : Int) (l : List FileItem)
    (x : FileItem) (hx : x.path ≠ p) :
    setRemovedFirst p t (l ++ [x]) = setRemovedFirst p t l ++ [x] := by
  induction l with
  | nil => simp [setRemovedFirst, hx]
  | cons f fs ih =>
    rw [List.cons_append, setRemovedFirst, setRemovedFirst]
    split
    · rw [List.cons_append]
    · rw [ih, List.cons_append]

/-- C4: for a group matching `p` with no existing entry at `p`, draining
`Added(p)` then `Removed(p)` in one call yields exactly one entry at `p` in
that group — tombstoned with the drain's `now` — not two entries. (The
tombstone is fresh, so the sweep keeps it as long as `sweepNow` is within the
retention window of `now`.) -/
theorem added_then_removed_single_tombstone (now sweepNow : Int) (p : FPath)
    (groups : List FileGroup) (i : Nat) (g g' : FileGroup)
    (hg : groups[i]? = some g)
    (hmatch : matchesGroup p g = true)
    (hfresh : ∀ f ∈ g.items, f.path ≠ p)
    (hret : sweepNow - now ≤ DELETED_RETENTION)
    (hg' : (update_file_items now sweepNow [.Added p, .Removed p] groups)[i]? = some g') :
    g'.items.countP (fun f => f.path == p) = 1 ∧
    ∀ f ∈ g'.items, f.path = p → f.removed = some now := by
  have h1 : (applyChange now groups (.Added p))[i]? =
      some { g with items := g.items ++ [FileItem.new p] } := by
    rw [getElem?_applyChange, hg]
    simp [applyChangeGroup, hmatch]
  have h2 : (List.foldl (applyChange now) groups [.Added p, .Removed p])[i]? =
      some { g with items := g.items ++ [⟨p, some now⟩] } := by
    rw [List.foldl_cons, List.foldl_cons, List.foldl_nil, getElem?_applyChange, h1]
    have hm1 : matchesGroup p { g with items := g.items ++ [FileItem.new p] } = true :=
      hmatch
    simp only [Option.map_some', applyChangeGroup, hm1, if_true]
    rw [setRemovedFirst_split p now g.items (FileItem.new p) [] hfresh rfl]
    rfl
  have hx : retainItem sweepNow (⟨p, some now⟩ : FileItem) = true := by
    rw [retainItem]
    exact decide_eq_true hret
  have h3 : g'.items = g.items.filter (retainItem sweepNow) ++ [⟨p, some now⟩] := by
    rw [update_file_items, getElem?_sweep, h2] at hg'
    simp only [Option.map_some'] at hg'
    rw [(Option.some.inj hg').symm]
    simp [List.filter_append, List.filter_cons, hx]
  constructor
  · rw [h3, List.countP_append]
    have hzero : (g.items.filter (retainItem sweepNow)).countP (fun f => f.path == p) = 0 := by
      refine List.countP_eq_zero.mpr fun f hf => ?_
      have hmem := (List.mem_filter.mp hf).1
      simp [hfresh f hmem]
    rw [hzero]
    simp
  · intro f hf hfp
    rw [h3] at hf
    rcases List.mem_append.mp hf with hf | hf
    · exact absurd hfp (hfresh f (List.mem_filter.mp hf).1)
    · rw [List.mem_singleton.mp hf]

/-- C5: a `Moved(a, b)` event with `a` and `b` sharing the same parent
directory rewrites, in every group whose root is a prefix of `a` containing
an entry at `a`, the first such entry's path to `b` and clears its tombstone,
adding or removing nothing; groups without such an entry (or not matching
`a`) are untouched. -/
theorem in_place_rename_rewrites_first_entry (now : Int) (a b : FPath)
    (groups : List FileGroup) (i : Nat) (g : FileGroup)
    (hpar : parent a = parent b)
    (hg : groups[i]? = some g) :
    (applyChange now groups (.Moved a b)).length = groups.length ∧
    (matchesGroup a g = false → (applyChange now groups (.Moved a b))[i]? = some g) ∧
    ((∀ f ∈ g.items, f.path ≠ a) → (applyChange now groups (.Moved a b))[i]? = some g) ∧
    (∀ pre fj post, matchesGroup a g = true → g.items = pre ++ fj :: post →
      (∀ f ∈ pre, f.path ≠ a) → fj.path = a →
      (applyChange now groups (.Moved a b))[i]? =
        some { g with items := pre ++ { fj with path := b, removed := none } :: post }) := by
  refine ⟨length_applyChange now groups _, fun hmf => ?_, fun hnone => ?_,
    fun pre fj post hmatch hsplit hpre hfj => ?_⟩
  · rw [getElem?_applyChange, hg]
    simp [applyChangeGroup, hpar, hmf]
  · rw [getElem?_applyChange, hg]
    by_cases hm : matchesGroup a g
    · simp only [Option.map_some', applyChangeGroup, hpar, if_true, hm]
      rw [renameFirst_eq_self a b g.items hnone]
    · simp [applyChangeGroup, hpar, hm]
  · rw [getElem?_applyChange, hg]
    simp only [Option.map_some', applyChangeGroup, hpar, if_true, hmatch]
    rw [hsplit, renameFirst_split a b pre fj post hpre hfj]

/-- C10: with duplicate entries for the same path in one group, a `Removed`
event, and the source-lookup of a cross-directory `Moved` event, tombstone
only the first entry in insertion order; all later duplicates are left
unchanged. -/
theorem removal_lookup_hits_first_duplicate_only (now : Int) (p b : FPath)
    (groups : List FileGroup) (i : Nat) (g : FileGroup)
    (pre : List FileItem) (fj : FileItem) (post : List FileItem)
    (hg : groups[i]? = some g)
    (hmatch : matchesGroup p g = true)
    (hsplit : g.items = pre ++ fj :: post)
    (hpre : ∀ f ∈ pre, f.path ≠ p)
    (hfj : fj.path = p) :
    ((applyChange now groups (.Removed p))[i]? =
      some { g with items := pre ++ { fj with removed := some now } :: post }) ∧
    (parent p ≠ parent b →
      (applyChange now groups (.Moved p b))[i]? =
        some { g with
               items := pre ++
                 { fj with
                   removed := some (if groups.any (matchesGroup b) then
                     now - DELETED_RETENTION else now) } ::
                 (post ++ if matchesGroup b g then [FileItem.new b] else []) }) := by
  constructor
  · rw [getElem?_applyChange, hg]
    simp only [Option.map_some', applyChangeGroup, hmatch, if_true]
    rw [hsplit, setRemovedFirst_split p now pre fj post hpre hfj]
  · intro hpar
    have hpb : p ≠ b := fun h => hpar (by rw [h])
    rw [getElem?_applyChange, hg]
    simp only [Option.map_some', applyChangeGroup, if_neg hpar, movedFlag]
    by_cases hb : matchesGroup b g
    · have hm1 : matchesGroup p { g with items := g.items ++ [FileItem.new b] } = true :=
        hmatch
      -- the appended arrival ends up after the first `p` entry: its path is `b ≠ p`
      simp only [hb, if_true, hm1]
      rw [hsplit, List.append_assoc, List.cons_append]
      rw [setRemovedFirst_split p _ pre fj (post ++ [FileItem.new b]) hpre hfj]
    · have hb' : matchesGroup b g = false := by simpa using hb
      simp only [hb', Bool.false_eq_true, if_false, hmatch, if_true]
      rw [hsplit, setRemovedFirst_split p _ pre fj post hpre hfj]
      simp

theorem applyChangeGroup_moved_cross (now : Int) (moved : Bool) (fr dst : FPath)
    (g : FileGroup) (hpar : parent fr ≠ parent dst) :
    applyChangeGroup now moved (.Moved fr dst) g =
      { g with items :=
          (if matchesGroup fr g then
            setRemovedFirst fr (if moved then now - DELETED_RETENTION else now)
              (if matchesGroup dst g then g.items ++ [FileItem.new dst] else g.items)
          else
            if matchesGroup dst g then g.items ++ [FileItem.new dst] else g.items) } := by
  simp only [applyChangeGroup, if_neg hpar]
  cases hdst : matchesGroup dst g <;> cases hfr : matchesGroup fr g <;>
    simp only [matchesGroup] at hdst hfr ⊢ <;>
    simp [hdst, hfr]

/-- C1: a cross-directory `Moved(fr, dst)` event drained by `update_file_items`
appends a live entry at `dst` to every group matching `dst` (it survives the
sweep as the group's last entry); then in every group matching `fr` that has
an entry at `fr`, the first such entry is tombstoned — back-dated a full
retention window when at least one group matched `dst`, so the sweep at the
end of the same call purges it, and stamped with the drain's `now` otherwise,
subject to ordinary retention. Groups matching `fr` without such an entry
only gain the possible arrival. (`sweepNow > now` because the sweep reads the
clock after the drain did.) -/
theorem cross_directory_move_correct (now sweepNow : Int) (fr dst : FPath)
    (groups : List FileGroup)
    (hpar : parent fr ≠ parent dst) (hsw : now < sweepNow) :
    (update_file_items now sweepNow [.Moved fr dst] groups).length = groups.length ∧
    ∀ (i : Nat) (g g' : FileGroup), groups[i]? = some g →
      (update_file_items now sweepNow [.Moved fr dst] groups)[i]? = some g' →
      ((matchesGroup dst g = true → g'.items.getLast? = some (FileItem.new dst)) ∧
       ((matchesGroup fr g = false ∨ ∀ f ∈ g.items, f.path ≠ fr) →
         g'.items =
           (g.items ++ if matchesGroup dst g then [FileItem.new dst] else []).filter
             (retainItem sweepNow)) ∧
       (∀ pre fj post, matchesGroup fr g = true → g.items = pre ++ fj :: post →
         (∀ f ∈ pre, f.path ≠ fr) → fj.path = fr →
         ((groups.any (matchesGroup dst) = true →
            g'.items =
              (pre ++ (post ++ if matchesGroup dst g then [FileItem.new dst] else [])).filter
                (retainItem sweepNow)) ∧
          (groups.any (matchesGroup dst) = false →
            g'.items =
              (pre ++ { fj with removed := some now } :: post).filter
                (retainItem sweepNow))))) := by
  have hfd : fr ≠ dst := fun h => hpar (by rw [h])
  have hlive : retainItem sweepNow (FileItem.new dst) = true := rfl
  have hdead : retainItem sweepNow { path := fr, removed := some (now - DELETED_RETENTION) } = false := by
    show decide (sweepNow - (now - DELETED_RETENTION) ≤ DELETED_RETENTION) = false
    exact decide_eq_false (by omega)
  refine ⟨length_update_file_items now sweepNow _ groups, fun i g g' hg hg' => ?_⟩
  rw [update_file_items, List.foldl_cons, List.foldl_nil, getElem?_sweep,
    getElem?_applyChange, hg] at hg'
  simp only [Option.map_some'] at hg'
  have hgi : g'.items =
      (if matchesGroup fr g then
        setRemovedFirst fr
          (if groups.any (matchesGroup dst) then now - DELETED_RETENTION else now)
          (if matchesGroup dst g then g.items ++ [FileItem.new dst] else g.items)
      else
        if matchesGroup dst g then g.items ++ [FileItem.new dst] else g.items).filter
        (retainItem sweepNow) := by
    rw [← Option.some.inj hg', applyChangeGroup_moved_cross now _ fr dst g hpar]
    rfl
  refine ⟨fun hdst => ?_, fun hno => ?_, fun pre fj post hfr hsplit hpre hfj => ?_⟩
  · -- arrival: the appended live entry is last and survives the sweep
    rw [hgi]
    have hnd : (FileItem.new dst).path ≠ fr := fun h => hfd h.symm
    rcases Bool.eq_false_or_eq_true (matchesGroup fr g) with hfr | hfr
    · rw [if_pos hfr, if_pos hdst,
        setRemovedFirst_concat_ne fr _ g.items (FileItem.new dst) hnd,
        List.filter_append]
      simp only [List.filter_cons, hlive, if_true, List.filter_nil]
      exact List.getLast?_concat _
    · rw [if_neg (show ¬matchesGroup fr g = true by simp [hfr]), if_pos hdst,
        List.filter_append]
      simp only [List.filter_cons, hlive, if_true, List.filter_nil]
      exact List.getLast?_concat _
  · -- no entry at `fr` in this group: only the possible arrival happens
    rw [hgi]
    rcases hno with hfr | hall
    · rw [if_neg (show ¬matchesGroup fr g = true by simp [hfr])]
      rcases Bool.eq_false_or_eq_true (matchesGroup dst g) with hdst | hdst
      · rw [if_pos hdst, if_pos hdst]
      · rw [if_neg (show ¬matchesGroup dst g = true by simp [hdst]),
          if_neg (show ¬matchesGroup dst g = true by simp [hdst]), List.append_nil]
    · rcases Bool.eq_false_or_eq_true (matchesGroup fr g) with hfr | hfr
      · rw [if_pos hfr]
        rcases Bool.eq_false_or_eq_true (matchesGroup dst g) with hdst | hdst
        · rw [if_pos hdst, if_pos hdst, setRemovedFirst_eq_self fr _ _ ?_]
          intro f hf
          rcases List.mem_append.mp hf with hf | hf
          · exact hall f hf
          · rw [List.mem_singleton.mp hf]
            exact fun h => hfd h.symm
        · rw [if_neg (show ¬matchesGroup dst g = true by simp [hdst]),
            if_neg (show ¬matchesGroup dst g = true by simp [hdst]),
            setRemovedFirst_eq_self fr _ g.items hall, List.append_nil]
      · rw [if_neg (show ¬matchesGroup fr g = true by simp [hfr])]
        rcases Bool.eq_false_or_eq_true (matchesGroup dst g) with hdst | hdst
        · rw [if_pos hdst, if_pos hdst]
        · rw [if_neg (show ¬matchesGroup dst g = true by simp [hdst]),
            if_neg (show ¬matchesGroup dst g = true by simp [hdst]), List.append_nil]
  · -- departure: the first entry at `fr` is tombstoned
    rw [hgi, if_pos hfr, hsplit]
    constructor
    · intro hmoved
      rw [if_pos hmoved]
      rcases Bool.eq_false_or_eq_true (matchesGroup dst g) with hdst | hdst
      · rw [if_pos hdst, if_pos hdst, List.append_assoc, List.cons_append,
          setRemovedFirst_split fr _ pre fj (post ++ [FileItem.new dst]) hpre hfj,
          List.filter_append, List.filter_cons]
        have hdeadj : retainItem sweepNow
            { fj with removed := some (now - DELETED_RETENTION) } = false := by
          rw [show ({ fj with removed := some (now - DELETED_RETENTION) } : FileItem) =
            { path := fj.path, removed := some (now - DELETED_RETENTION) } from rfl, hfj]
          exact hdead
        rw [hdeadj]
        simp only [Bool.false_eq_true, if_false, List.filter_append]
      · rw [if_neg (show ¬matchesGroup dst g = true by simp [hdst]),
          if_neg (show ¬matchesGroup dst g = true by simp [hdst]),
          setRemovedFirst_split fr _ pre fj post hpre hfj,
          List.filter_append, List.filter_cons]
        have hdeadj : retainItem sweepNow
            { fj with removed := some (now - DELETED_RETENTION) } = false := by
          rw [show ({ fj with removed := some (now - DELETED_RETENTION) } : FileItem) =
            { path := fj.path, removed := some (now - DELETED_RETENTION) } from rfl, hfj]
          exact hdead
        rw [hdeadj]
        simp only [Bool.false_eq_true, if_false, List.append_nil, List.filter_append]
    · intro hunmoved
      have hdst : matchesGroup dst g = false := by
        have := List.any_eq_false.mp hunmoved g (List.getElem?_mem hg)
        simpa using this
      rw [if_neg (show ¬groups.any (matchesGroup dst) = true by simp [hunmoved]),
        if_neg (show ¬matchesGroup dst g = true by simp [hdst]),
        setRemovedFirst_split fr _ pre fj post hpre hfj]

/-! ## Claims about the service probe -/

/-- C2 (counterexample): a completed status command with a non-zero exit
status and decodable stdout does NOT produce the `Unknown` variant — it
produces `Details` with `active = false` (this is how `systemctl is-active`
reports an inactive unit). -/
theorem probe_nonzero_exit_yields_details :
    service_status "svc" (some { stdout := some "inactive", success := false }) =
      ServiceState.Details { name := "svc", active := false, status := "inactive" } ∧
    service_status "svc" (some { stdout := some "inactive", success := false }) ≠
      ServiceState.Unknown "svc" := by
  constructor
  · rfl
  · decide

/-- C2 (amended): every probe invocation resolves to one of the two variants
and never raises: a missing command (`none`) or undecodable stdout yields
`Unknown(name)`; a completed command with decodable stdout yields `Details`
with `active` equal to the exit-status success flag — even when the exit
status is non-zero. -/
theorem probe_always_resolves (name : String) (out : Option Output) :
    match out with
    | none => service_status name out = ServiceState.Unknown name
    | some o =>
      match o.stdout with
      | none => service_status name out = ServiceState.Unknown name
      | some s =>
        service_status name out =
          ServiceState.Details { name := name, active := o.success, status := s } := by
  cases out with
  | none => rfl
  | some o =>
    obtain ⟨st, suc⟩ := o
    cases st with
    | none => rfl
    | some s => rfl

/-! ## Claims about the initial state builder -/

theorem checkPaths_append_error (fs : FS) (p : FPath) (rest : List FPath) :
    ∀ pre : List FPath, (∀ q ∈ pre, fs.pathExists q = true ∧ fs.isDir q = true) →
    (fs.pathExists p = false ∨ fs.isDir p = false) →
    checkPaths fs (pre ++ p :: rest) =
      .error (if fs.pathExists p then InitError.notADirectory p
              else InitError.doesNotExist p) := by
  intro pre
  induction pre with
  | nil =>
    intro _ hbad
    rcases hbad with hb | hb
    · simp [checkPaths, hb]
    · by_cases hex : fs.pathExists p = true
      · simp [checkPaths, hex, hb]
      · have hex' : fs.pathExists p = false := by simpa using hex
        simp [checkPaths, hex', hb]
  | cons q qs ih =>
    intro hpre hbad
    have hq := hpre q (List.mem_cons_self q qs)
    rw [List.cons_append, checkPaths]
    rw [if_neg (by simp [hq.1]), if_neg (by simp [hq.2])]
    exact ih (fun r hr => hpre r (List.mem_cons_of_mem _ hr)) hbad

/-- C8: if some input path does not exist or is not a directory — and it is
the first violating path — `get_initial_state` fails with the corresponding
descriptive error naming that path, and returns no groups at all. -/
theorem get_initial_state_first_violation (fs : FS) (pre rest : List FPath)
    (p : FPath)
    (hpre : ∀ q ∈ pre, fs.pathExists q = true ∧ fs.isDir q = true)
    (hbad : fs.pathExists p = false ∨ fs.isDir p = false) :
    get_initial_state fs (pre ++ p :: rest) =
      .error (if fs.pathExists p then InitError.notADirectory p
              else InitError.doesNotExist p) := by
  unfold get_initial_state
  rw [checkPaths_append_error fs p rest pre hpre hbad]

theorem read_initial_contents_ok (fs : FS) (p : FPath) (g : FileGroup)
    (h : read_initial_contents fs p = .ok g) :
    ∃ root children,
      fs.canonicalize p = some root ∧
      fs.readDir root = some children ∧
      g.root = root ∧
      canonicalizeAll fs children = some (g.items.map FileItem.path) ∧
      ∀ f ∈ g.items, f.removed = none := by
  unfold read_initial_contents at h
  split at h
  · exact absurd h (by simp)
  · rename_i root hc
    split at h
    · exact absurd h (by simp)
    · rename_i children hr
      split at h
      · exact absurd h (by simp)
      · rename_i contents hca
        have hg : g = { root := root, items := contents.map FileItem.new } :=
          (Except.ok.inj h).symm
        refine ⟨root, children, hc, hr, by rw [hg], ?_, ?_⟩
        · rw [hg, hca]
          simp only [List.map_map]
          rw [show FileItem.path ∘ FileItem.new = id from funext fun q => rfl,
            List.map_id]
        · rw [hg]
          intro f hf
          rcases List.mem_map.mp hf with ⟨q, _, hq⟩
          rw [← hq]
          rfl

theorem collectGroups_ok (fs : FS) : ∀ (paths : List FPath) (gs : List FileGroup),
    collectGroups fs paths = .ok gs →
    gs.length = paths.length ∧
    ∀ (i : Nat) (p : FPath), paths[i]? = some p →
      ∃ g, gs[i]? = some g ∧ read_initial_contents fs p = .ok g := by
  intro paths
  induction paths with
  | nil =>
    intro gs h
    have : gs = [] := (Except.ok.inj h).symm
    subst this
    exact ⟨rfl, fun i p hp => absurd hp (by simp)⟩
  | cons p ps ih =>
    intro gs h
    unfold collectGroups at h
    split at h
    · exact absurd h (by simp)
    · rename_i g hr
      split at h
      · exact absurd h (by simp)
      · rename_i gs' hc
        have hgs : gs = g :: gs' := (Except.ok.inj h).symm
        subst hgs
        obtain ⟨hlen, hidx⟩ := ih gs' hc
        refine ⟨by simp [hlen], fun i q hq => ?_⟩
        cases i with
        | zero =>
          refine ⟨g, by simp, ?_⟩
          have hpq : p = q := by simpa using hq
          rw [← hpq]
          exact hr
        | succ n =>
          obtain ⟨g', hg', hro'⟩ := hidx n q (by simpa using hq)
          exact ⟨g', by simpa using hg', hro'⟩

/-- C7: when `get_initial_state` succeeds, it returns exactly one group per
input path, in input order; each group's root is the canonicalized input
path, its items are exactly the canonicalized immediate children of that root
in enumeration order, and every entry is live (no tombstone). -/
theorem get_initial_state_builds_registry (fs : FS) (paths : List FPath)
    (gs : List FileGroup) (h : get_initial_state fs paths = .ok gs) :
    gs.length = paths.length ∧
    ∀ (i : Nat) (p : FPath), paths[i]? = some p →
      ∃ g root children,
        gs[i]? = some g ∧
        fs.canonicalize p = some root ∧
        fs.readDir root = some children ∧
        g.root = root ∧
        canonicalizeAll fs children = some (g.items.map FileItem.path) ∧
        ∀ f ∈ g.items, f.removed = none := by
  have hcol : collectGroups fs paths = .ok gs := by
    unfold get_initial_state at h
    cases hc : checkPaths fs paths with
    | error e => rw [hc] at h; exact absurd h (by simp)
    | ok u => rw [hc] at h; exact h
  obtain ⟨hlen, hidx⟩ := collectGroups_ok fs paths gs hcol
  refine ⟨hlen, fun i p hp => ?_⟩
  obtain ⟨g, hg, hro⟩ := hidx i p hp
  obtain ⟨root, children, h1, h2, h3, h4, h5⟩ := read_initial_contents_ok fs p g hro
  exact ⟨g, root, children, hg, h1, h2, h3, h4, h5⟩

/-! ## Concrete witnesses -/

/-- A concrete filesystem oracle: one directory `/a` with children `/a/x` and
`/a/y`, canonicalization the identity. -/
def fsSample : FS where
  pathExists := fun p => decide (p = ["a"])
  isDir := fun p => decide (p = ["a"])
  canonicalize := fun p => some p
  readDir := fun p => if p = ["a"] then some [["a", "x"], ["a", "y"]] else none

/-- Witness for C1 at the spec's own example: `Moved(/root/move, /other/move)`
against groups `/root = [bar, move]` and `/other = [foo]`. -/
theorem cross_directory_move_correct_witness :
    (update_file_items 0 1 [FileChange.Moved ["root", "move"] ["other", "move"]]
        [{ root := ["root"],
           items := [FileItem.new ["root", "bar"], FileItem.new ["root", "move"]] },
         { root := ["other"], items := [FileItem.new ["other", "foo"]] }])[0]? =
      some { root := ["root"], items := [FileItem.new ["root", "bar"]] } ∧
    ({ root := ["root"], items := [FileItem.new ["root", "bar"]] } : FileGroup).items =
      ([FileItem.new ["root", "bar"]] ++ ([] ++ [])).filter (retainItem 1) :=
  ⟨by decide,
    ((cross_directory_move_correct 0 1 ["root", "move"] ["other", "move"]
        [{ root := ["root"],
           items := [FileItem.new ["root", "bar"], FileItem.new ["root", "move"]] },
         { root := ["other"], items := [FileItem.new ["other", "foo"]] }]
        (by decide) (by decide)).2 0
        { root := ["root"],
          items := [FileItem.new ["root", "bar"], FileItem.new ["root", "move"]] }
        { root := ["root"], items := [FileItem.new ["root", "bar"]] }
        (by decide) (by decide)).2.2
      [FileItem.new ["root", "bar"]] (FileItem.new ["root", "move"]) []
      (by decide) (by decide) (by decide) (by decide) |>.1 (by decide)⟩

/-- Witness for C3: an empty drain sweeps an expired tombstone and keeps the
live entry. -/
theorem retention_sweep_correct_witness :
    (update_file_items 0 1 []
        [{ root := ["root"],
           items := [{ path := ["root", "a"], removed := none },
                     { path := ["root", "b"], removed := some (-100000) }] }])[0]? =
      some { root := ["root"], items := [{ path := ["root", "a"], removed := none }] } ∧
    (({ path := ["root", "b"], removed := some (-100000) } : FileItem) ∈
        ({ root := ["root"],
           items := [{ path := ["root", "a"], removed := none }] } : FileGroup).items ↔
      ({ path := ["root", "b"], removed := some (-100000) } : FileItem) ∈
        ({ root := ["root"],
           items := [{ path := ["root", "a"], removed := none },
                     { path := ["root", "b"], removed := some (-100000) }] } : FileGroup).items ∧
      (({ path := ["root", "b"], removed := some (-100000) } : FileItem).removed = none ∨
        ∃ r, ({ path := ["root", "b"], removed := some (-100000) } : FileItem).removed = some r ∧
          1 - r ≤ DELETED_RETENTION)) :=
  ⟨by decide,
    (retention_sweep_correct 0 1 []
        [{ root := ["root"],
           items := [{ path := ["root", "a"], removed := none },
                     { path := ["root", "b"], removed := some (-100000) }] }]).2.2 0
      { root := ["root"],
        items := [{ path := ["root", "a"], removed := none },
                  { path := ["root", "b"], removed := some (-100000) }] }
      { root := ["root"], items := [{ path := ["root", "a"], removed := none }] }
      (by decide) (by decide)
      { path := ["root", "b"], removed := some (-100000) }⟩

/-- Witness for C4: `Added(/root/new)` then `Removed(/root/new)` in one call
leaves exactly one (tombstoned) entry at the path. -/
theorem added_then_removed_single_tombstone_witness :
    (update_file_items 0 1 [FileChange.Added ["root", "new"], FileChange.Removed ["root", "new"]]
        [{ root := ["root"], items := [FileItem.new ["root", "bar"]] }])[0]? =
      some { root := ["root"],
             items := [FileItem.new ["root", "bar"],
                       { path := ["root", "new"], removed := some 0 }] } ∧
    (({ root := ["root"],
        items := [FileItem.new ["root", "bar"],
                  { path := ["root", "new"], removed := some 0 }] } : FileGroup).items.countP
        (fun f => f.path == ["root", "new"]) = 1 ∧
      ∀ f ∈ ({ root := ["root"],
               items := [FileItem.new ["root", "bar"],
                         { path := ["root", "new"], removed := some 0 }] } : FileGroup).items,
        f.path = ["root", "new"] → f.removed = some 0) :=
  ⟨by decide,
    added_then_removed_single_tombstone 0 1 ["root", "new"]
      [{ root := ["root"], items := [FileItem.new ["root", "bar"]] }] 0
      { root := ["root"], items := [FileItem.new ["root", "bar"]] }
      { root := ["root"],
        items := [FileItem.new ["root", "bar"],
                  { path := ["root", "new"], removed := some 0 }] }
      (by decide) (by decide) (by decide) (by decide) (by decide)⟩

/-- Witness for C5: an in-place rename `Moved(/root/bar, /root/new)` rewrites
the (tombstoned) entry's path and clears its tombstone, leaving the rest. -/
theorem in_place_rename_rewrites_first_entry_witness :
    (applyChange 0
        [{ root := ["root"],
           items := [{ path := ["root", "bar"], removed := some 5 },
                     FileItem.new ["root", "foo"]] }]
        (FileChange.Moved ["root", "bar"] ["root", "new"]))[0]? =
      some { root := ["root"],
             items := [{ path := ["root", "new"], removed := none },
                       FileItem.new ["root", "foo"]] } :=
  (in_place_rename_rewrites_first_entry 0 ["root", "bar"] ["root", "new"]
      [{ root := ["root"],
         items := [{ path := ["root", "bar"], removed := some 5 },
                   FileItem.new ["root", "foo"]] }] 0
      { root := ["root"],
        items := [{ path := ["root", "bar"], removed := some 5 },
                  FileItem.new ["root", "foo"]] }
      (by decide) (by decide)).2.2.2
    [] { path := ["root", "bar"], removed := some 5 } [FileItem.new ["root", "foo"]]
    (by decide) (by decide) (by decide) (by decide)

/-- Witness for C6: two identical groups sharing a root still agree after a
drained `Added` event. -/
theorem equal_groups_stay_equal_witness :
    (update_file_items 0 1 [FileChange.Added ["root", "y"]]
        [{ root := ["root"], items := [FileItem.new ["root", "x"]] },
         { root := ["root"], items := [FileItem.new ["root", "x"]] }])[0]? =
      some { root := ["root"],
             items := [FileItem.new ["root", "x"], FileItem.new ["root", "y"]] } ∧
    ({ root := ["root"],
       items := [FileItem.new ["root", "x"], FileItem.new ["root", "y"]] } : FileGroup).items =
      ({ root := ["root"],
         items := [FileItem.new ["root", "x"], FileItem.new ["root", "y"]] } : FileGroup).items :=
  ⟨by decide,
    equal_groups_stay_equal 0 1 [FileChange.Added ["root", "y"]]
      [{ root := ["root"], items := [FileItem.new ["root", "x"]] },
       { root := ["root"], items := [FileItem.new ["root", "x"]] }] 0 1
      { root := ["root"], items := [FileItem.new ["root", "x"]] }
      { root := ["root"], items := [FileItem.new ["root", "x"], FileItem.new ["root", "y"]] }
      { root := ["root"], items := [FileItem.new ["root", "x"], FileItem.new ["root", "y"]] }
      (by decide) (by decide) (by decide) (by decide)⟩

/-- Witness for C7: scanning the sample filesystem's directory `/a` builds one
group with exactly its two children, live. -/
theorem get_initial_state_builds_registry_witness :
    get_initial_state fsSample [["a"]] =
      .ok [{ root := ["a"],
             items := [FileItem.new ["a", "x"], FileItem.new ["a", "y"]] }] ∧
    (∃ g root children,
      ([{ root := ["a"],
          items := [FileItem.new ["a", "x"], FileItem.new ["a", "y"]] }] :
            List FileGroup)[0]? = some g ∧
      fsSample.canonicalize ["a"] = some root ∧
      fsSample.readDir root = some children ∧
      g.root = root ∧
      canonicalizeAll fsSample children = some (g.items.map FileItem.path) ∧
      ∀ f ∈ g.items, f.removed = none) :=
  ⟨rfl,
    (get_initial_state_builds_registry fsSample [["a"]]
        [{ root := ["a"],
           items := [FileItem.new ["a", "x"], FileItem.new ["a", "y"]] }] rfl).2
      0 ["a"] (by decide)⟩

/-- Witness for C8: a missing path `/b` makes the whole scan fail with the
descriptive "does not exist" error naming it. -/
theorem get_initial_state_first_violation_witness :
    get_initial_state fsSample [["b"]] = .error (InitError.doesNotExist ["b"]) :=
  get_initial_state_first_violation fsSample [] [] ["b"]
    (fun q hq => absurd hq (List.not_mem_nil q)) (Or.inl (by decide))

/-- Witness for C10: with two duplicate entries at `/root/dup`, a `Removed`
tombstones only the first; the second stays live. -/
theorem removal_lookup_hits_first_duplicate_only_witness :
    (applyChange 0
        [{ root := ["root"],
           items := [{ path := ["root", "dup"], removed := none },
                     { path := ["root", "dup"], removed := none }] }]
        (FileChange.Removed ["root", "dup"]))[0]? =
      some { root := ["root"],
             items := [{ path := ["root", "dup"], removed := some 0 },
                       { path := ["root", "dup"], removed := none }] } :=
  (removal_lookup_hits_first_duplicate_only 0 ["root", "dup"] ["other", "x"]
      [{ root := ["root"],
         items := [{ path := ["root", "dup"], removed := none },
                   { path := ["root", "dup"], removed := none }] }] 0
      { root := ["root"],
        items := [{ path := ["root", "dup"], removed := none },
                  { path := ["root", "dup"], removed := none }] }
      [] { path := ["root", "dup"], removed := none }
      [{ path := ["root", "dup"], removed := none }]
      (by decide) (by decide) (by decide) (by decide) (by decide)).1

end FileTask

-- quick sanity checks against the repository's unit tests
open FileTask in
example :
    update_file_items 0 1 [.Added ["root", "foo"]]
      [{ root := ["root"], items := [] }] =
      [{ root := ["root"], items := [FileItem.new ["root", "foo"]] }] := by
  decide

open FileTask in
example :
    update_file_items 0 1
      [.Moved ["root", "move"] ["other", "move"]]
      [{ root := ["root"],
         items := [FileItem.new ["root", "bar"], FileItem.new ["root", "move"]] },
       { root := ["other"], items := [FileItem.new ["other", "foo"]] }] =
      [{ root := ["root"], items := [FileItem.new ["root", "bar"]] },
       { root := ["other"],
         items := [FileItem.new ["other", "foo"], FileItem.new ["other", "move"]] }] := by
  decide
